import Mathlib

/-!
Shallow embedding of the HTL2026 timeline engine: TrackDuplicator.js,
TimelineCore.js, and the slider mapping functions of master.js and
SliderController.js.  Numbers are modelled as rationals; every DOM read
(card identifiers, card top positions, track scroll height) is passed in
explicitly as data.
-/

namespace HTL2026

/-- TrackDuplicator.isAlreadyDuplicated (TrackDuplicator.js lines 18 to 27):
the track counts as duplicated when the card count is at least 2, even, and
the id of card i equals the id of card i + half for every i below half.
A card is represented by its id string. -/
def isAlreadyDuplicated (all : List String) : Bool :=
  if all.length < 2 then false
  else if all.length % 2 != 0 then false
  else
    let half := all.length / 2
    (List.range half).all fun i => all.getD i "" == all.getD (i + half) ""

/-- TrackDuplicator.duplicate (TrackDuplicator.js lines 33 to 44): when the
card list is nonempty and not yet duplicated, append a clone of every card
in order; otherwise leave the list unchanged. -/
def duplicate (all : List String) : List String :=
  if all.length = 0 then all
  else if isAlreadyDuplicated all then all
  else all ++ all

/-- The mutable fields of a TimelineCore instance (TimelineCore.js
constructor, lines 17 to 39), together with the last translateY value
written to the track style (the render sink). -/
structure EngineState where
  posY : ℚ
  autoScroll : Bool
  offsets : List ℚ
  originalCount : ℕ
  halfTrackHeight : ℚ
  running : Bool
  transform : ℚ
deriving DecidableEq, Repr

/-- BASE_SPEED (TimelineCore.js line 28): pixels per frame of auto-scroll. -/
def BASE_SPEED : ℚ := 0.75

/-- FAST_SPEED (Controls.js line 22): pixels per frame while an arrow is held. -/
def FAST_SPEED : ℚ := 25

/-- TimelineCore._applyTransform (TimelineCore.js lines 95 to 98): write
posY into the track transform. -/
def applyTransform (s : EngineState) : EngineState := { s with transform := s.posY }

/-- The wrap rule of TimelineCore._animate (TimelineCore.js lines 144 to
148): when halfTrackHeight is positive, first add halfTrackHeight if the
position is at or below minus halfTrackHeight, then subtract it if the
position is positive. -/
def wrapPos (half p : ℚ) : ℚ :=
  if 0 < half then
    let p1 := if p ≤ -half then p + half else p
    if 0 < p1 then p1 - half else p1
  else p

/-- TimelineCore._animate (TimelineCore.js lines 138 to 154): when running,
advance by BASE_SPEED if autoScroll is on, apply the wrap rule, write the
transform, and request the next frame; the Bool records whether a next
frame was scheduled.  When not running the callback does nothing. -/
def animate (s : EngineState) : EngineState × Bool :=
  if s.running then
    let s1 := if s.autoScroll then { s with posY := s.posY - BASE_SPEED } else s
    let s2 := { s1 with posY := wrapPos s1.halfTrackHeight s1.posY }
    (applyTransform s2, true)
  else (s, false)

/-- One animation tick: the state part of animate. -/
def tick (s : EngineState) : EngineState := (animate s).1

/-- A sequence of frames, each advancing the position by some delta and then
applying the wrap rule.  The delta is minus BASE_SPEED on an auto-scroll
frame and plus or minus FAST_SPEED on an arrow frame (the Controls.js tick
loop adds arrowSpeed to posY before the core wrap runs in the same frame). -/
def foldTicks (half p : ℚ) (ds : List ℚ) : ℚ :=
  ds.foldl (fun q d => wrapPos half (q + d)) p

/-- First while loop of TimelineCore.jumpToIndex (TimelineCore.js line 111):
while the value is strictly below minus halfTrackHeight, add
halfTrackHeight.  Note the strict comparison, unlike the tick wrap rule. -/
def jumpUp (half v : ℚ) : ℚ :=
  if h : 0 < half ∧ v < -half then jumpUp half (v + half) else v
termination_by (⌈(-half - v) / half⌉).toNat
decreasing_by
  have hh := h.1
  have hv := h.2
  have key : (-half - (v + half)) / half = (-half - v) / half - 1 := by
    field_simp
    ring
  rw [key, Int.ceil_sub_one]
  have hpos : 0 < (-half - v) / half := div_pos (by linarith) hh
  have h1 : (1 : ℤ) ≤ ⌈(-half - v) / half⌉ := Int.ceil_pos.mpr hpos
  omega

/-- Second while loop of TimelineCore.jumpToIndex (TimelineCore.js line
112): while the value is positive, subtract halfTrackHeight. -/
def jumpDown (half v : ℚ) : ℚ :=
  if h : 0 < half ∧ 0 < v then jumpDown half (v - half) else v
termination_by (⌈v / half⌉).toNat
decreasing_by
  have hh := h.1
  have hv := h.2
  have key : (v - half) / half = v / half - 1 := by
    field_simp
  rw [key, Int.ceil_sub_one]
  have hpos : 0 < v / half := div_pos hv hh
  have h1 : (1 : ℤ) ≤ ⌈v / half⌉ := Int.ceil_pos.mpr hpos
  omega

/-- TimelineCore.jumpToIndex (TimelineCore.js lines 104 to 115): on an empty
offset table return unchanged; otherwise clamp the index into range, take
minus the offset at the clamped index, run both wrap while loops, store the
result in posY and apply the transform immediately. -/
def jumpToIndex (s : EngineState) (idx : ℤ) : EngineState :=
  if s.offsets.length = 0 then s
  else
    let idx1 := max 0 (min ((s.offsets.length : ℤ) - 1) idx)
    let desired := -(s.offsets.getD idx1.toNat 0)
    let val := jumpDown s.halfTrackHeight (jumpUp s.halfTrackHeight desired)
    applyTransform { s with posY := val }

/-- TimelineCore.posYForIndex (TimelineCore.js lines 120 to 124). -/
def posYForIndex (s : EngineState) (i : ℤ) : ℚ :=
  if s.offsets.length = 0 then 0
  else -(s.offsets.getD (max 0 (min ((s.offsets.length : ℤ) - 1) i)).toNat 0)

/-- The scan loop of TimelineCore.nearestCardIndex (TimelineCore.js lines 78
to 87).  The best distance starts at Infinity, modelled as none; every
finite distance is below Infinity, so the first iteration always takes the
candidate. -/
def nearestAux (dist : ℚ) : List ℚ → ℕ → ℕ → Option ℚ → ℕ
  | [], _, nearest, _ => nearest
  | o :: rest, i, nearest, best =>
    let d := |dist - o|
    match best with
    | none => nearestAux dist rest (i + 1) i (some d)
    | some b =>
      if d < b then nearestAux dist rest (i + 1) i (some d)
      else nearestAux dist rest (i + 1) nearest (some b)

/-- TimelineCore.nearestCardIndex (TimelineCore.js lines 75 to 88). -/
def nearestCardIndex (s : EngineState) : ℕ :=
  if s.offsets.length = 0 then 0
  else nearestAux (|s.posY|) s.offsets 0 0 none

/-- TimelineCore.computeOffsetsNow (TimelineCore.js lines 46 to 70), with
the DOM reads made explicit: tops is the offsetTop of every card in the
track in document order, sh is the track scrollHeight.  With no cards the
offsets empty out; otherwise the first originalCount cards (all of them
when originalCount is zero, the JS falsy fallback) are measured relative to
the first card top.  The JS first top reads cards[0]?.offsetTop || 0, which
equals the plain head value, since x || 0 is x for every number other than
0 and is 0 at 0. -/
def computeOffsetsNow (tops : List ℚ) (sh : ℚ) (s : EngineState) : EngineState :=
  if tops.length = 0 then
    { s with offsets := [], originalCount := 0,
             halfTrackHeight := ((round (sh / 2) : ℤ) : ℚ) }
  else
    let firstCount := if s.originalCount = 0 then tops.length else s.originalCount
    let cards := tops.take firstCount
    let firstTop := cards.headD 0
    { s with offsets := cards.map fun c => c - firstTop,
             halfTrackHeight := ((round (sh / 2) : ℤ) : ℚ) }

/-- The bracket search loop of fractionalIndexForPosY (master.js lines 307
to 314): scan consecutive offset pairs; at the first pair enclosing dist
return the index plus the interpolation parameter; when the loop falls
through return 0 (master.js line 315). -/
def fracLoop (dist : ℚ) : List ℚ → ℕ → ℚ
  | a :: b :: rest, i =>
    if a ≤ dist ∧ dist ≤ b then (i : ℚ) + (dist - a) / (b - a)
    else fracLoop dist (b :: rest) (i + 1)
  | _, _ => 0

/-- fractionalIndexForPosY (master.js lines 302 to 316). -/
def fractionalIndexForPosY (offsets : List ℚ) (y : ℚ) : ℚ :=
  if offsets.length = 0 then 0
  else
    let dist := |y|
    if dist ≤ offsets.getD 0 0 then 0
    else if offsets.getD (offsets.length - 1) 0 ≤ dist then ((offsets.length - 1 : ℕ) : ℚ)
    else fracLoop dist offsets 0

/-- The slider value written by syncSliderLoop (master.js line 416) for a
fractional index. -/
def sliderValForFrac (n : ℕ) (frac : ℚ) : ℚ :=
  100 - frac / ((n : ℚ) - 1) * 100

/-- The position computed by the slider input handler (master.js lines 370
to 379, likewise SliderController._onInput lines 107 to 117) from a slider
value: recover the fractional index, floor it, interpolate between the two
bracketing offsets and negate. -/
def sliderPosYForVal (offsets : List ℚ) (val : ℚ) : ℚ :=
  let n := offsets.length
  let frac := (1 - val / 100) * ((n : ℚ) - 1)
  let iL := ⌊frac⌋
  let iU := min ((n : ℤ) - 1) (iL + 1)
  let t := frac - (iL : ℚ)
  let interp := offsets.getD iL.toNat 0 + (offsets.getD iU.toNat 0 - offsets.getD iL.toNat 0) * t;
  -interp

/-- The end-to-end scenario state of spec section 8 item 9: four cards with
tops 0, 100, 250, 420 after duplication, halfTrackHeight 420, auto-scroll
on, engine running. -/
def c4s0 : EngineState :=
  { posY := 0, autoScroll := true, offsets := [0, 100, 250, 420],
    originalCount := 4, halfTrackHeight := 420, running := true, transform := 0 }

/-- A state whose last offset equals halfTrackHeight exactly (the boundary
of the wrap interval). -/
def c2state : EngineState :=
  { posY := 0, autoScroll := true, offsets := [0, 420],
    originalCount := 2, halfTrackHeight := 420, running := false, transform := 0 }

/-- The nearest-index fixture of spec section 8 item 5. -/
def c5state : EngineState :=
  { posY := -145, autoScroll := false, offsets := [0, 50, 140, 300],
    originalCount := 4, halfTrackHeight := 300, running := true, transform := 0 }

/-- A stopped state used to exercise the animate callback. -/
def cStop : EngineState :=
  { posY := -7, autoScroll := true, offsets := [0, 10],
    originalCount := 2, halfTrackHeight := 20, running := false, transform := -7 }

/-- A state with an empty offset table. -/
def cEmpty : EngineState :=
  { posY := -3, autoScroll := true, offsets := [], originalCount := 0,
    halfTrackHeight := 0, running := true, transform := -3 }

/-- A small running state with two offsets. -/
def cTwo : EngineState :=
  { posY := -4, autoScroll := true, offsets := [0, 10],
    originalCount := 2, halfTrackHeight := 20, running := true, transform := -4 }

/-! Helper lemmas shared by several developments below. -/

lemma getD_take_lt (l : List ℚ) (n i : ℕ) (h : i < n) :
    (l.take n).getD i 0 = l.getD i 0 := by
  simp [List.getD_eq_getElem?_getD, List.getElem?_take, h]

lemma getD_map_offset (l : List ℚ) (c : ℚ) (i : ℕ) (h : i < l.length) :
    (l.map fun x => x - c).getD i 0 = l.getD i 0 - c := by
  simp [List.getD_eq_getElem?_getD, List.getElem?_eq_getElem h]

/-- The one-step wrap preserves the wrap interval as long as the advance is
smaller than one period. -/
lemma wrapPos_step (half p d : ℚ) (hh : 0 < half) (hp1 : -half < p) (hp2 : p ≤ 0)
    (hd : |d| < half) : -half < wrapPos half (p + d) ∧ wrapPos half (p + d) ≤ 0 := by
  obtain ⟨hd1, hd2⟩ := abs_lt.mp hd
  simp only [wrapPos, if_pos hh]
  split_ifs with h1 h2 h3 <;> constructor <;> linarith

/-- A position already inside the wrap interval is left alone by the wrap
rule. -/
lemma wrapPos_eq_self (half q : ℚ) (h1 : -half < q) (h2 : q ≤ 0) :
    wrapPos half q = q := by
  simp only [wrapPos]
  split_ifs <;> first | rfl | linarith

lemma foldTicks_nil (half p : ℚ) : foldTicks half p [] = p := rfl

lemma foldTicks_cons (half p d : ℚ) (ds : List ℚ) :
    foldTicks half p (d :: ds) = foldTicks half (wrapPos half (p + d)) ds := rfl

lemma foldTicks_mem (half : ℚ) (hh : 0 < half) :
    ∀ (ds : List ℚ) (p : ℚ), -half < p → p ≤ 0 → (∀ d ∈ ds, |d| < half) →
      -half < foldTicks half p ds ∧ foldTicks half p ds ≤ 0 := by
  intro ds
  induction ds with
  | nil => intro p h1 h2 _; exact ⟨h1, h2⟩
  | cons d rest ih =>
    intro p h1 h2 hall
    have hd : |d| < half := hall d (List.mem_cons_self d rest)
    have step := wrapPos_step half p d hh h1 h2 hd
    rw [foldTicks_cons]
    exact ih (wrapPos half (p + d)) step.1 step.2 fun x hx => hall x (List.mem_cons_of_mem d hx)

/-- A tick only rewrites posY and transform; the layout and control fields
survive unchanged. -/
lemma tick_fields (s : EngineState) :
    (tick s).offsets = s.offsets ∧ (tick s).halfTrackHeight = s.halfTrackHeight ∧
    (tick s).autoScroll = s.autoScroll ∧ (tick s).running = s.running ∧
    (tick s).originalCount = s.originalCount := by
  by_cases hr : s.running <;> by_cases ha : s.autoScroll <;>
    simp [tick, animate, applyTransform, hr, ha]

/-- On a running auto-scroll state the tick advances by BASE_SPEED and then
wraps. -/
lemma tick_posY_auto (s : EngineState) (hr : s.running = true) (ha : s.autoScroll = true) :
    (tick s).posY = wrapPos s.halfTrackHeight (s.posY - BASE_SPEED) := by
  simp [tick, animate, applyTransform, hr, ha]

/-- On a running state with auto-scroll off the tick only wraps. -/
lemma tick_posY_manual (s : EngineState) (hr : s.running = true) (ha : s.autoScroll = false) :
    (tick s).posY = wrapPos s.halfTrackHeight s.posY := by
  simp [tick, animate, applyTransform, hr, ha]

/-- Claim C1: for halfTrackHeight positive and a position inside
(-halfTrackHeight, 0], one frame that advances by any delta of magnitude
below halfTrackHeight and then applies the wrap rule of the tick lands back
inside (-halfTrackHeight, 0]; hence any sequence of such frames keeps the
position inside the interval, and in particular a running tick with
BASE_SPEED below halfTrackHeight does. -/
theorem c1_wrap_invariant (half p : ℚ) (hh : 0 < half) (hp1 : -half < p) (hp2 : p ≤ 0) :
    (∀ d : ℚ, |d| < half → -half < wrapPos half (p + d) ∧ wrapPos half (p + d) ≤ 0) ∧
    (∀ ds : List ℚ, (∀ d ∈ ds, |d| < half) →
      -half < foldTicks half p ds ∧ foldTicks half p ds ≤ 0) ∧
    (∀ s : EngineState, s.running = true → s.halfTrackHeight = half → s.posY = p →
      BASE_SPEED < half → -half < (tick s).posY ∧ (tick s).posY ≤ 0) := by
  refine ⟨fun d hd => wrapPos_step half p d hh hp1 hp2 hd,
          fun ds hds => foldTicks_mem half hh ds p hp1 hp2 hds, ?_⟩
  intro s hr hhalf hpos hbase
  by_cases ha : s.autoScroll
  · rw [tick_posY_auto s hr ha, hhalf, hpos]
    have := wrapPos_step half p (-BASE_SPEED) hh hp1 hp2
      (by rw [abs_neg, abs_of_pos (by norm_num [BASE_SPEED])]; exact hbase)
    simpa [sub_eq_add_neg] using this
  · rw [tick_posY_manual s hr (by simpa using ha), hhalf, hpos]
    rw [wrapPos_eq_self half p hp1 hp2]
    exact ⟨hp1, hp2⟩

/-- Witness for C1 at halfTrackHeight 420, position 0, with one auto-scroll
frame and one arrow frame. -/
theorem c1_wrap_invariant_witness :
    -420 < foldTicks 420 0 [-BASE_SPEED, FAST_SPEED] ∧
    foldTicks 420 0 [-BASE_SPEED, FAST_SPEED] ≤ 0 :=
  (c1_wrap_invariant 420 0 (by norm_num) (by norm_num) le_rfl).2.1
    [-BASE_SPEED, FAST_SPEED]
    (by
      intro d hd
      simp only [List.mem_cons, List.not_mem_nil, or_false] at hd
      rcases hd with rfl | rfl <;> norm_num [BASE_SPEED, FAST_SPEED, abs_lt])

/-- The doubled list always passes the duplication test. -/
lemma isAlreadyDuplicated_append_self (T : List String) (hT : T ≠ []) :
    isAlreadyDuplicated (T ++ T) = true := by
  have hT1 : 1 ≤ T.length := List.length_pos.mpr hT
  have hlen : (T ++ T).length = 2 * T.length := by
    simp [List.length_append]
    ring
  simp only [isAlreadyDuplicated, hlen]
  rw [if_neg (by omega), if_neg (by simp [Nat.mul_mod_right])]
  have hhalf : 2 * T.length / 2 = T.length := by omega
  rw [hhalf, List.all_eq_true]
  intro i hi
  have hilt : i < T.length := List.mem_range.mp hi
  rw [List.getD_append T T "" i hilt]
  have : (T ++ T).getD (i + T.length) "" = T.getD i "" := by
    rw [List.getD_append_right T T "" _ (Nat.le_add_left _ _)]
    simp
  rw [this]
  exact beq_self_eq_true _

/-- Claim C3: duplicating a nonempty card sequence is idempotent, including
the singleton case: a second duplicate call recognizes the doubled track and
changes nothing. -/
theorem c3_duplicate_idempotent (S : List String) (hS : S ≠ []) :
    duplicate (duplicate S) = duplicate S ∧ isAlreadyDuplicated (duplicate S) = true := by
  have hlen : S.length ≠ 0 := fun h => hS (List.length_eq_zero.mp h)
  by_cases hdup : isAlreadyDuplicated S = true
  · have h1 : duplicate S = S := by
      simp only [duplicate]
      rw [if_neg hlen, if_pos hdup]
    refine ⟨?_, by rw [h1]; exact hdup⟩
    rw [h1, h1]
  · have h1 : duplicate S = S ++ S := by
      simp only [duplicate]
      rw [if_neg hlen, if_neg hdup]
    have h2 : isAlreadyDuplicated (S ++ S) = true := isAlreadyDuplicated_append_self S hS
    have hlen2 : (S ++ S).length ≠ 0 := by
      rw [List.length_append]
      omega
    refine ⟨?_, by rw [h1]; exact h2⟩
    rw [h1]
    simp only [duplicate]
    rw [if_neg hlen2, if_pos h2]

/-- Witness for C3 on the singleton sequence. -/
theorem c3_duplicate_idempotent_witness :
    duplicate (duplicate ["a"]) = duplicate ["a"] ∧
    isAlreadyDuplicated (duplicate ["a"]) = true :=
  c3_duplicate_idempotent ["a"] (by decide)

/-- Claim C10: when the engine is stopped, the animate callback leaves the
whole state (position, flags, offsets, counts, applied transform) unchanged
and schedules no further frame. -/
theorem c10_stopped_noop (s : EngineState) (h : s.running = false) :
    animate s = (s, false) := by
  simp [animate, h]

/-- Witness for C10 on a concrete stopped state. -/
theorem c10_stopped_noop_witness : animate cStop = (cStop, false) :=
  c10_stopped_noop cStop rfl

/-- Closed form of the posY written by jumpToIndex on a nonempty offset
table. -/
lemma jump_posY_nonempty (s : EngineState) (i : ℤ) (hne : s.offsets.length ≠ 0) :
    (jumpToIndex s i).posY = jumpDown s.halfTrackHeight (jumpUp s.halfTrackHeight
      (-(s.offsets.getD (max 0 (min ((s.offsets.length : ℤ) - 1) i)).toNat 0))) := by
  simp only [jumpToIndex, applyTransform]
  rw [if_neg hne]

/-- Claim C9: a tick followed by jumpToIndex yields the same position as the
jump alone: the jump reads only offsets and halfTrackHeight, which the tick
does not touch, and it overwrites posY without reading it. -/
theorem c9_most_recent_write (s : EngineState) (i : ℤ) (h : s.offsets ≠ [])
    (h0 : 0 ≤ i) (h1 : i < (s.offsets.length : ℤ)) :
    (jumpToIndex (tick s) i).posY = (jumpToIndex s i).posY ∧
    ∀ q : ℚ, (jumpToIndex { s with posY := q } i).posY = (jumpToIndex s i).posY := by
  have hne : s.offsets.length ≠ 0 := fun hh => h (List.length_eq_zero.mp hh)
  obtain ⟨hoff, hhalf, -, -, -⟩ := tick_fields s
  have hne2 : (tick s).offsets.length ≠ 0 := by rw [hoff]; exact hne
  constructor
  · rw [jump_posY_nonempty _ _ hne, jump_posY_nonempty _ _ hne2, hoff, hhalf]
  · intro q
    rw [jump_posY_nonempty _ _ hne, jump_posY_nonempty { s with posY := q } _ hne]

/-- Witness for C9 on a concrete running state. -/
theorem c9_most_recent_write_witness :
    (jumpToIndex (tick cTwo) 1).posY = (jumpToIndex cTwo 1).posY :=
  (c9_most_recent_write cTwo 1 (by simp [cTwo]) (by norm_num) (by norm_num [cTwo])).1

/-- Claim C8: with an empty offset table every engine operation returns its
neutral value and mutates nothing, and on a nonempty table any index fed to
jumpToIndex or posYForIndex is clamped into range, the clamped call giving
the same result. -/
theorem c8_degenerate_and_clamp :
    (∀ s : EngineState, s.offsets = [] →
      nearestCardIndex s = 0 ∧ (∀ i : ℤ, posYForIndex s i = 0) ∧
      (∀ i : ℤ, jumpToIndex s i = s)) ∧
    (∀ (sh : ℚ) (s : EngineState),
      (computeOffsetsNow [] sh s).offsets = [] ∧
      (computeOffsetsNow [] sh s).originalCount = 0) ∧
    (∀ (s : EngineState) (i : ℤ), s.offsets ≠ [] →
      0 ≤ max 0 (min ((s.offsets.length : ℤ) - 1) i) ∧
      max 0 (min ((s.offsets.length : ℤ) - 1) i) < (s.offsets.length : ℤ) ∧
      jumpToIndex s i = jumpToIndex s (max 0 (min ((s.offsets.length : ℤ) - 1) i)) ∧
      posYForIndex s i = posYForIndex s (max 0 (min ((s.offsets.length : ℤ) - 1) i))) := by
  refine ⟨?_, ?_, ?_⟩
  · intro s h
    refine ⟨by simp [nearestCardIndex, h], fun i => by simp [posYForIndex, h],
            fun i => by simp [jumpToIndex, h]⟩
  · intro sh s
    exact ⟨by simp [computeOffsetsNow], by simp [computeOffsetsNow]⟩
  · intro s i h
    have hL : 1 ≤ (s.offsets.length : ℤ) := by exact_mod_cast List.length_pos.mpr h
    have hcl : max 0 (min ((s.offsets.length : ℤ) - 1)
        (max 0 (min ((s.offsets.length : ℤ) - 1) i))) =
        max 0 (min ((s.offsets.length : ℤ) - 1) i) := by omega
    refine ⟨le_max_left _ _, by omega, ?_, ?_⟩
    · simp only [jumpToIndex]
      rw [hcl]
    · simp only [posYForIndex]
      rw [hcl]

/-- Witness for C8: a stale index 5 on a two-card table is clamped to 1, and
the empty table returns index 0. -/
theorem c8_degenerate_and_clamp_witness :
    nearestCardIndex cEmpty = 0 ∧
    jumpToIndex cTwo 5 = jumpToIndex cTwo (max 0 (min ((cTwo.offsets.length : ℤ) - 1) 5)) :=
  ⟨(c8_degenerate_and_clamp.1 cEmpty rfl).1,
   (c8_degenerate_and_clamp.2.2 cTwo 5 (by simp [cTwo])).2.2.1⟩

/-- Claim C2, evaluated at the wrap boundary: with offsets 0 and 420 and
halfTrackHeight 420, jumpToIndex 1 leaves posY at exactly -420 (the jump
while loop compares with a strict less-than, so the boundary value is not
folded), which is outside the interval (-420, 0]; the tick wrap rule of
step 3 would instead fold the same desired value -420 to 0.  The transform
is nevertheless applied immediately with that value. -/
theorem c2_jump_boundary_eval :
    (jumpToIndex c2state 1).posY = -420 ∧
    (jumpToIndex c2state 1).transform = -420 ∧
    ¬(-c2state.halfTrackHeight < (jumpToIndex c2state 1).posY ∧
      (jumpToIndex c2state 1).posY ≤ 0) ∧
    wrapPos c2state.halfTrackHeight (-(c2state.offsets.getD 1 0)) = 0 := by
  have hval : jumpDown (420 : ℚ) (jumpUp 420 (-420)) = -420 := by
    rw [jumpUp]
    norm_num
    rw [jumpDown]
    norm_num
  have h1 : (jumpToIndex c2state 1).posY = -420 := by
    norm_num [jumpToIndex, c2state, applyTransform]
    rw [jumpUp]
    norm_num
    rw [jumpDown]
    norm_num
  have h2 : (jumpToIndex c2state 1).transform = -420 := by
    norm_num [jumpToIndex, c2state, applyTransform]
    rw [jumpUp]
    norm_num
    rw [jumpDown]
    norm_num
  refine ⟨h1, h2, ?_, ?_⟩
  · rw [h1]
    norm_num [c2state]
  · norm_num [c2state, wrapPos]

/-- The position after k ticks of the end-to-end scenario, while no wrap has
fired yet. -/
lemma c4_aux : ∀ k : ℕ, k ≤ 559 →
    (tick^[k] c4s0).posY = -(BASE_SPEED * k) ∧
    (tick^[k] c4s0).autoScroll = true ∧ (tick^[k] c4s0).running = true ∧
    (tick^[k] c4s0).halfTrackHeight = 420 := by
  intro k
  induction k with
  | zero => intro _; refine ⟨by norm_num [c4s0], rfl, rfl, rfl⟩
  | succ k ih =>
    intro hk
    obtain ⟨hpos, hauto, hrun, hhalf⟩ := ih (by omega)
    rw [Function.iterate_succ_apply']
    obtain ⟨-, hh2, ha2, hr2, -⟩ := tick_fields (tick^[k] c4s0)
    have hk558 : (k : ℚ) ≤ 558 := by exact_mod_cast Nat.lt_succ_iff.mp (by omega)
    have hk0 : (0 : ℚ) ≤ (k : ℚ) := Nat.cast_nonneg k
    have hB : BASE_SPEED = 3 / 4 := by norm_num [BASE_SPEED]
    have hstep := tick_posY_auto (tick^[k] c4s0) hrun hauto
    rw [hpos, hhalf] at hstep
    have hwrap : wrapPos 420 (-(BASE_SPEED * k) - BASE_SPEED) = -(BASE_SPEED * (k + 1 : ℕ)) := by
      rw [wrapPos_eq_self]
      · push_cast
        ring
      · rw [hB]
        linarith
      · rw [hB]
        linarith
    rw [hstep, hwrap]
    refine ⟨rfl, ?_, ?_, ?_⟩
    · rw [ha2]; exact hauto
    · rw [hr2]; exact hrun
    · rw [hh2]; exact hhalf

/-- Claim C4: in the end-to-end scenario the raw position reaches exactly
-420 at tick 560 and the inclusive wrap comparison folds it to exactly 0;
at every earlier tick the position is exactly minus BASE_SPEED times the
tick count, strictly above -420, and no wrap fires. -/
theorem c4_scenario_560 :
    (tick^[560] c4s0).posY = 0 ∧
    ∀ k : ℕ, k < 560 →
      (tick^[k] c4s0).posY = -(BASE_SPEED * k) ∧ -420 < (tick^[k] c4s0).posY := by
  constructor
  · obtain ⟨hpos, hauto, hrun, hhalf⟩ := c4_aux 559 le_rfl
    have h560 : (560 : ℕ) = 559 + 1 := by norm_num
    rw [h560, Function.iterate_succ_apply']
    have hstep := tick_posY_auto (tick^[559] c4s0) hrun hauto
    rw [hpos, hhalf] at hstep
    rw [hstep]
    norm_num [BASE_SPEED, wrapPos]
  · intro k hk
    obtain ⟨hpos, -, -, -⟩ := c4_aux k (by omega)
    refine ⟨hpos, ?_⟩
    rw [hpos]
    have hk559 : (k : ℚ) ≤ 559 := by exact_mod_cast Nat.lt_succ_iff.mp hk
    norm_num [BASE_SPEED]
    linarith

/-- Witness for C4 at tick 100. -/
theorem c4_scenario_560_witness :
    (tick^[100] c4s0).posY = -(BASE_SPEED * (100 : ℕ)) ∧ -420 < (tick^[100] c4s0).posY :=
  c4_scenario_560.2 100 (by norm_num)

/-- Claim C6: after computeOffsetsNow on a nonempty card set, every offset
equals the top of its card minus the top of the first card; hence the first
offset is 0, and the offsets are monotone whenever the card tops are. -/
theorem c6_compute_offsets (tops : List ℚ) (sh : ℚ) (s : EngineState) (h : tops ≠ []) :
    (∀ i, i < (computeOffsetsNow tops sh s).offsets.length →
      (computeOffsetsNow tops sh s).offsets.getD i 0 = tops.getD i 0 - tops.getD 0 0) ∧
    (computeOffsetsNow tops sh s).offsets.getD 0 0 = 0 ∧
    (computeOffsetsNow tops sh s).offsets ≠ [] ∧
    ((∀ i, i + 1 < tops.length → tops.getD i 0 ≤ tops.getD (i + 1) 0) →
      ∀ i, i + 1 < (computeOffsetsNow tops sh s).offsets.length →
        (computeOffsetsNow tops sh s).offsets.getD i 0 ≤
          (computeOffsetsNow tops sh s).offsets.getD (i + 1) 0) := by
  have hne : tops.length ≠ 0 := fun hh => h (List.length_eq_zero.mp hh)
  set fc := if s.originalCount = 0 then tops.length else s.originalCount with hfc_def
  have hfc : 1 ≤ fc := by
    rw [hfc_def]
    split_ifs <;> omega
  have hoffs : (computeOffsetsNow tops sh s).offsets =
      (tops.take fc).map fun c => c - (tops.take fc).headD 0 := by
    simp only [computeOffsetsNow]
    rw [if_neg hne, ← hfc_def]
  have hhead : (tops.take fc).headD 0 = tops.getD 0 0 := by
    obtain ⟨t, tl, rfl⟩ : ∃ t tl, tops = t :: tl := by
      rcases tops with _ | ⟨t, tl⟩
      · exact absurd rfl h
      · exact ⟨t, tl, rfl⟩
    obtain ⟨fc1, hfc1⟩ : ∃ fc1, fc = fc1 + 1 := ⟨fc - 1, by omega⟩
    rw [hfc1]
    simp
  have hlen : (computeOffsetsNow tops sh s).offsets.length = min fc tops.length := by
    rw [hoffs]
    simp [List.length_take]
  have hpoint : ∀ i, i < (computeOffsetsNow tops sh s).offsets.length →
      (computeOffsetsNow tops sh s).offsets.getD i 0 = tops.getD i 0 - tops.getD 0 0 := by
    intro i hi
    rw [hlen] at hi
    have hifc : i < fc := lt_of_lt_of_le hi (min_le_left _ _)
    have hitake : i < (tops.take fc).length := by
      simp only [List.length_take]
      omega
    rw [hoffs]
    simp only [hhead]
    rw [getD_map_offset _ _ _ hitake, getD_take_lt _ _ _ hifc]
  have hpos0 : 0 < (computeOffsetsNow tops sh s).offsets.length := by
    rw [hlen]
    have := List.length_pos.mpr h
    omega
  refine ⟨hpoint, ?_, List.ne_nil_of_length_pos hpos0, ?_⟩
  · rw [hpoint 0 hpos0]
    ring
  · intro hmono i hi1
    have hi : i < (computeOffsetsNow tops sh s).offsets.length := by omega
    have hlen_le : (computeOffsetsNow tops sh s).offsets.length ≤ tops.length := by
      rw [hlen]
      omega
    rw [hpoint i hi, hpoint (i + 1) hi1]
    have := hmono i (by omega)
    linarith

/-- Witness for C6 on two cards with tops 0 and 100. -/
theorem c6_compute_offsets_witness :
    (computeOffsetsNow [0, 100] 840 cEmpty).offsets.getD 0 0 = 0 :=
  (c6_compute_offsets [0, 100] 840 cEmpty (by simp)).2.1

/-- Loop invariant of the nearest-index scan once the best distance is
finite: the scan either keeps the incoming candidate, in which case no
remaining element beats the incoming best, or returns the position of the
first remaining element realizing the least remaining distance, which then
beats the incoming best. -/
lemma nearestAux_some (dist : ℚ) :
    ∀ (l : List ℚ) (i nearest : ℕ) (b : ℚ),
      (nearestAux dist l i nearest (some b) = nearest ∧
        ∀ j, j < l.length → b ≤ |dist - l.getD j 0|) ∨
      (∃ k, k < l.length ∧ nearestAux dist l i nearest (some b) = i + k ∧
        |dist - l.getD k 0| < b ∧
        (∀ j, j < l.length → |dist - l.getD k 0| ≤ |dist - l.getD j 0|) ∧
        (∀ j, j < k → |dist - l.getD k 0| < |dist - l.getD j 0|)) := by
  intro l
  induction l with
  | nil =>
    intro i nearest b
    left
    exact ⟨rfl, fun j hj => absurd hj (Nat.not_lt_zero j)⟩
  | cons o rest ih =>
    intro i nearest b
    have hstep : nearestAux dist (o :: rest) i nearest (some b) =
        if |dist - o| < b then nearestAux dist rest (i + 1) i (some (|dist - o|))
        else nearestAux dist rest (i + 1) nearest (some b) := by
      simp [nearestAux]
    by_cases hd : |dist - o| < b
    · rw [hstep, if_pos hd]
      rcases ih (i + 1) i (|dist - o|) with ⟨heq, hall⟩ | ⟨k, hk, heq, hlt, hmin, hstrict⟩
      · right
        refine ⟨0, by simp, by rw [heq]; omega, by simpa using hd, ?_,
          fun j hj => absurd hj (Nat.not_lt_zero j)⟩
        intro j hj
        cases j with
        | zero => simp
        | succ j1 =>
          simp only [List.getD_cons_zero, List.getD_cons_succ]
          exact hall j1 (by simpa using hj)
      · right
        refine ⟨k + 1, by simpa using hk, by rw [heq]; omega, ?_, ?_, ?_⟩
        · simpa using hlt.trans hd
        · intro j hj
          cases j with
          | zero =>
            simp only [List.getD_cons_zero, List.getD_cons_succ]
            exact le_of_lt hlt
          | succ j1 =>
            simp only [List.getD_cons_succ]
            exact hmin j1 (by simpa using hj)
        · intro j hj
          cases j with
          | zero =>
            simp only [List.getD_cons_zero, List.getD_cons_succ]
            exact hlt
          | succ j1 =>
            simp only [List.getD_cons_succ]
            exact hstrict j1 (by omega)
    · rw [hstep, if_neg hd]
      push_neg at hd
      rcases ih (i + 1) nearest b with ⟨heq, hall⟩ | ⟨k, hk, heq, hlt, hmin, hstrict⟩
      · left
        refine ⟨heq, ?_⟩
        intro j hj
        cases j with
        | zero => simpa using hd
        | succ j1 =>
          simp only [List.getD_cons_succ]
          exact hall j1 (by simpa using hj)
      · right
        refine ⟨k + 1, by simpa using hk, by rw [heq]; omega, by simpa using hlt, ?_, ?_⟩
        · intro j hj
          cases j with
          | zero =>
            simp only [List.getD_cons_zero, List.getD_cons_succ]
            exact le_of_lt (lt_of_lt_of_le hlt hd)
          | succ j1 =>
            simp only [List.getD_cons_succ]
            exact hmin j1 (by simpa using hj)
        · intro j hj
          cases j with
          | zero =>
            simp only [List.getD_cons_zero, List.getD_cons_succ]
            exact lt_of_lt_of_le hlt hd
          | succ j1 =>
            simp only [List.getD_cons_succ]
            exact hstrict j1 (by omega)

/-- Claim C5: nearestCardIndex returns an in-range index whose offset
distance to the absolute position is minimal, the lowest such index winning
ties; and on the fixture offsets 0, 50, 140, 300 with position -145 it
returns 2. -/
theorem c5_nearest_index :
    (∀ s : EngineState, s.offsets ≠ [] →
      nearestCardIndex s < s.offsets.length ∧
      (∀ j, j < s.offsets.length →
        |(|s.posY|) - s.offsets.getD (nearestCardIndex s) 0| ≤
          |(|s.posY|) - s.offsets.getD j 0|) ∧
      (∀ j, j < nearestCardIndex s →
        |(|s.posY|) - s.offsets.getD (nearestCardIndex s) 0| <
          |(|s.posY|) - s.offsets.getD j 0|)) ∧
    nearestCardIndex c5state = 2 := by
  constructor
  · intro s h
    obtain ⟨o, rest, hoffs⟩ : ∃ o rest, s.offsets = o :: rest := by
      rcases hh : s.offsets with _ | ⟨o, rest⟩
      · exact absurd hh h
      · exact ⟨o, rest, rfl⟩
    have hrun : nearestCardIndex s = nearestAux (|s.posY|) rest 1 0 (some (|(|s.posY|) - o|)) := by
      simp [nearestCardIndex, hoffs, nearestAux]
    rcases nearestAux_some (|s.posY|) rest 1 0 (|(|s.posY|) - o|) with
      ⟨heq, hall⟩ | ⟨k, hk, heq, hlt, hmin, hstrict⟩
    · have hnc : nearestCardIndex s = 0 := by rw [hrun, heq]
      rw [hnc, hoffs]
      refine ⟨by simp, ?_, fun j hj => absurd hj (Nat.not_lt_zero j)⟩
      intro j hj
      cases j with
      | zero => exact le_refl _
      | succ j1 =>
        simp only [List.getD_cons_zero, List.getD_cons_succ]
        exact hall j1 (by simpa using hj)
    · have hnc : nearestCardIndex s = 1 + k := by rw [hrun, heq]
      rw [hnc, hoffs]
      have hgk : (o :: rest).getD (1 + k) 0 = rest.getD k 0 := by
        rw [Nat.add_comm]
        exact List.getD_cons_succ
      refine ⟨by simp only [List.length_cons]; omega, ?_, ?_⟩
      · intro j hj
        rw [hgk]
        cases j with
        | zero =>
          simp only [List.getD_cons_zero]
          exact le_of_lt hlt
        | succ j1 =>
          simp only [List.getD_cons_succ]
          exact hmin j1 (by simpa using hj)
      · intro j hj
        rw [hgk]
        cases j with
        | zero =>
          simp only [List.getD_cons_zero]
          exact hlt
        | succ j1 =>
          simp only [List.getD_cons_succ]
          exact hstrict j1 (by omega)
  · norm_num [nearestCardIndex, c5state, nearestAux]

/-- Witness for C5 on the fixture state. -/
theorem c5_nearest_index_witness :
    nearestCardIndex c5state < c5state.offsets.length :=
  (c5_nearest_index.1 c5state (by simp [c5state])).1

/-- Discrete intermediate value: when dist lies between the first and the
last entry, some consecutive pair encloses it. -/
lemma bracket_exists :
    ∀ (l : List ℚ) (dist : ℚ), 2 ≤ l.length →
      l.getD 0 0 ≤ dist → dist ≤ l.getD (l.length - 1) 0 →
      ∃ k, k + 1 < l.length ∧ l.getD k 0 ≤ dist ∧ dist ≤ l.getD (k + 1) 0 := by
  intro l
  induction l with
  | nil => intro dist h2 _ _; simp at h2
  | cons a rest ih =>
    intro dist hlen h0 hlast
    rcases rest with _ | ⟨b, rest1⟩
    · simp at hlen
    · by_cases hb : dist ≤ b
      · refine ⟨0, ?_, h0, by simpa using hb⟩
        simp only [List.length_cons]
        omega
      · push_neg at hb
        rcases rest1 with _ | ⟨c, rest2⟩
        · exfalso
          simp at hlast
          linarith
        · have hlen2 : 2 ≤ (b :: c :: rest2).length := by simp
          have h0b : (b :: c :: rest2).getD 0 0 ≤ dist := by
            simpa using le_of_lt hb
          have hlastb : dist ≤ (b :: c :: rest2).getD ((b :: c :: rest2).length - 1) 0 := by
            have hidx : (a :: b :: c :: rest2).length - 1 = ((b :: c :: rest2).length - 1) + 1 := by
              simp only [List.length_cons]
              omega
            rw [hidx] at hlast
            simpa using hlast
          obtain ⟨k, hk, hkle, hkge⟩ := ih dist hlen2 h0b hlastb
          refine ⟨k + 1, ?_, by simpa using hkle, by simpa using hkge⟩
          simp only [List.length_cons] at hk ⊢
          omega

/-- The bracket loop returns the first enclosing pair with its
interpolation parameter, offset by the running index. -/
lemma fracLoop_found (dist : ℚ) :
    ∀ (l : List ℚ) (i : ℕ),
      (∃ k, k + 1 < l.length ∧ l.getD k 0 ≤ dist ∧ dist ≤ l.getD (k + 1) 0) →
      ∃ k, k + 1 < l.length ∧ l.getD k 0 ≤ dist ∧ dist ≤ l.getD (k + 1) 0 ∧
        fracLoop dist l i = ((i + k : ℕ) : ℚ) +
          (dist - l.getD k 0) / (l.getD (k + 1) 0 - l.getD k 0) := by
  intro l
  induction l with
  | nil =>
    intro i h
    obtain ⟨k, hk, -⟩ := h
    simp at hk
  | cons a rest ih =>
    intro i hex
    rcases rest with _ | ⟨b, rest1⟩
    · obtain ⟨k, hk, -⟩ := hex
      simp at hk
    · by_cases hab : a ≤ dist ∧ dist ≤ b
      · refine ⟨0, by simp only [List.length_cons]; omega, hab.1, by simpa using hab.2, ?_⟩
        have hfl : fracLoop dist (a :: b :: rest1) i = (i : ℚ) + (dist - a) / (b - a) := by
          simp [fracLoop, hab]
        rw [hfl]
        simp
      · have hstep : fracLoop dist (a :: b :: rest1) i = fracLoop dist (b :: rest1) (i + 1) := by
          simp [fracLoop, hab]
        obtain ⟨k0, hk0, hle0, hge0⟩ := hex
        have hex1 : ∃ k, k + 1 < (b :: rest1).length ∧ (b :: rest1).getD k 0 ≤ dist ∧
            dist ≤ (b :: rest1).getD (k + 1) 0 := by
          cases k0 with
          | zero => exact absurd ⟨by simpa using hle0, by simpa using hge0⟩ hab
          | succ k1 =>
            refine ⟨k1, ?_, by simpa using hle0, by simpa using hge0⟩
            simp only [List.length_cons] at hk0 ⊢
            omega
        obtain ⟨k, hk, hle, hge, heq⟩ := ih (i + 1) hex1
        refine ⟨k + 1, by simp only [List.length_cons] at hk ⊢; omega,
          by simpa using hle, by simpa using hge, ?_⟩
        rw [hstep, heq]
        have hnat : i + 1 + k = i + (k + 1) := by omega
        rw [hnat]
        simp

/-- Claim C7 as amended: for strictly increasing offsets and a nonpositive
position p whose magnitude lies strictly between the first and the last
offset, mapping p to a fractional index, through the slider value, and back
through the slider input interpolation returns p exactly. -/
theorem c7_round_trip (offsets : List ℚ) (p : ℚ)
    (hmono : ∀ j, j + 1 < offsets.length → offsets.getD j 0 < offsets.getD (j + 1) 0)
    (hp : p ≤ 0)
    (h1 : offsets.getD 0 0 < |p|)
    (h2 : |p| < offsets.getD (offsets.length - 1) 0) :
    sliderPosYForVal offsets
      (sliderValForFrac offsets.length (fractionalIndexForPosY offsets p)) = p := by
  have hn2 : 2 ≤ offsets.length := by
    by_contra hc
    push_neg at hc
    have hidx : offsets.length - 1 = 0 := by omega
    rw [hidx] at h2
    linarith
  have hne : offsets.length ≠ 0 := by omega
  have hfrac0 : fractionalIndexForPosY offsets p = fracLoop (|p|) offsets 0 := by
    simp only [fractionalIndexForPosY]
    rw [if_neg hne, if_neg (not_le.mpr h1), if_neg (not_le.mpr h2)]
  have hbr := bracket_exists offsets (|p|) hn2 (le_of_lt h1) (le_of_lt h2)
  obtain ⟨k, hk, hle, hge, heqf⟩ := fracLoop_found (|p|) offsets 0 hbr
  have hab : offsets.getD k 0 < offsets.getD (k + 1) 0 := hmono k hk
  set a := offsets.getD k 0 with ha
  set b := offsets.getD (k + 1) 0 with hb
  set t : ℚ := (|p| - a) / (b - a) with ht
  have hba : (0 : ℚ) < b - a := sub_pos.mpr hab
  have ht0 : 0 ≤ t := div_nonneg (by linarith) (le_of_lt hba)
  have ht1 : t ≤ 1 := by
    rw [ht, div_le_one hba]
    linarith
  have hfval : fractionalIndexForPosY offsets p = (k : ℚ) + t := by
    rw [hfrac0, heqf]
    norm_num
  have hnQ : (2 : ℚ) ≤ (offsets.length : ℚ) := by exact_mod_cast hn2
  have hn1 : ((offsets.length : ℚ) - 1) ≠ 0 := ne_of_gt (by linarith)
  have hrec : (1 - sliderValForFrac offsets.length ((k : ℚ) + t) / 100) *
      ((offsets.length : ℚ) - 1) = (k : ℚ) + t := by
    simp only [sliderValForFrac]
    field_simp
    ring
  rw [hfval]
  simp only [sliderPosYForVal]
  rw [hrec]
  rcases lt_or_eq_of_le ht1 with htlt | hteq
  · have hfloor : ⌊(k : ℚ) + t⌋ = (k : ℤ) := by
      rw [add_comm, show ((k : ℚ)) = (((k : ℤ) : ℤ) : ℚ) by push_cast; ring,
        Int.floor_add_int, Int.floor_eq_zero_iff.mpr (Set.mem_Ico.mpr ⟨ht0, htlt⟩)]
      omega
    have htoNat : (⌊(k : ℚ) + t⌋).toNat = k := by
      rw [hfloor]
      exact Int.toNat_natCast k
    have hiU : (min ((offsets.length : ℤ) - 1) (⌊(k : ℚ) + t⌋ + 1)).toNat = k + 1 := by
      rw [hfloor]
      have hkle : (k : ℤ) + 1 ≤ (offsets.length : ℤ) - 1 := by omega
      rw [min_eq_right hkle]
      omega
    have hfloorcast : ((⌊(k : ℚ) + t⌋ : ℤ) : ℚ) = (k : ℚ) := by
      rw [hfloor]
      push_cast
      ring
    have hsub : ((k : ℚ) + t) - (k : ℚ) = t := by ring
    rw [htoNat, hiU, hfloorcast, hsub, ← ha, ← hb, ht]
    have hinterp : a + (b - a) * ((|p| - a) / (b - a)) = |p| := by
      field_simp
    rw [hinterp, abs_of_nonpos hp]
    ring
  · have hone : (|p| - a) / (b - a) = 1 := by rw [← ht, hteq]
    have hdb : |p| = b := by
      have h' : |p| - a = b - a := by
        field_simp at hone
        linarith
      linarith
    have hfloor : ⌊(k : ℚ) + t⌋ = (k : ℤ) + 1 := by
      rw [hteq, show (k : ℚ) + 1 = (((k : ℤ) + 1 : ℤ) : ℚ) by push_cast; ring,
        Int.floor_intCast]
    have htoNat : (⌊(k : ℚ) + t⌋).toNat = k + 1 := by
      rw [hfloor]
      omega
    have hfloorcast : ((⌊(k : ℚ) + t⌋ : ℤ) : ℚ) = (k : ℚ) + 1 := by
      rw [hfloor]
      push_cast
      ring
    have hzero : ((k : ℚ) + t) - ((k : ℚ) + 1) = 0 := by
      rw [hteq]
      ring
    rw [htoNat, hfloorcast, hzero, mul_zero, add_zero, ← hb, ← hdb, abs_of_nonpos hp]
    ring

/-- Witness for C7 on offsets 0, 100 and position -50. -/
theorem c7_round_trip_witness :
    sliderPosYForVal [0, 100]
      (sliderValForFrac ([0, 100] : List ℚ).length
        (fractionalIndexForPosY [0, 100] (-50))) = -50 :=
  c7_round_trip [0, 100] (-50)
    (by
      intro j hj
      simp only [List.length_cons, List.length_nil] at hj
      have hj0 : j = 0 := by omega
      subst hj0
      norm_num)
    (by norm_num) (by norm_num) (by norm_num)

/-- Counterexample to C7 as stated: for the positive position 50, whose
magnitude lies strictly between the strictly increasing offsets 0 and 100,
the round trip returns -50, not 50: the mapping recovers only the magnitude
and negates it. -/
theorem c7_positive_counterexample :
    (∀ j, j + 1 < ([0, 100] : List ℚ).length →
      ([0, 100] : List ℚ).getD j 0 < ([0, 100] : List ℚ).getD (j + 1) 0) ∧
    ([0, 100] : List ℚ).getD 0 0 < |(50 : ℚ)| ∧
    |(50 : ℚ)| < ([0, 100] : List ℚ).getD (([0, 100] : List ℚ).length - 1) 0 ∧
    sliderPosYForVal [0, 100]
      (sliderValForFrac ([0, 100] : List ℚ).length
        (fractionalIndexForPosY [0, 100] 50)) = -50 ∧
    (-50 : ℚ) ≠ 50 := by
  refine ⟨?_, by norm_num, by norm_num, ?_, by norm_num⟩
  · intro j hj
    simp only [List.length_cons, List.length_nil] at hj
    have hj0 : j = 0 := by omega
    subst hj0
    norm_num
  · norm_num [sliderPosYForVal, sliderValForFrac, fractionalIndexForPosY, fracLoop]

end HTL2026
